import Mathlib

/-!
Shallow embedding of `integral_convolve.py`: a numerical solver for a Fredholm
integral equation of the second kind on a torus, exploiting cyclic symmetry.

Conventions of the embedding:
* Python floats are modelled by exact real numbers `ℝ`.
* numpy 1-D arrays built by append loops are modelled as Lean `List`s;
  numpy 2-D arrays are modelled as index functions `ℕ → ℕ → _` (meaningful on
  indices below the array dimension), since every access in the source is by
  index arithmetic.
* Python's negative list index `A[t]` (with `-len(A) ≤ t < 0`) wraps around,
  i.e. it reads `A[t + len A]`; in `get_cyclic_reps` the access `A[i-j]` with
  `0 ≤ i, j < N` is therefore `A[(i + N - j) % N]`.
* Python's stable `sorted(..., key=...)` is modelled by Mathlib's stable
  `List.insertionSort` on the key comparison.
* `numpy.argmax` over a vector of length `n` (index of the first maximal
  entry) is modelled by a left fold keeping the earlier index on ties.
-/

namespace IntegralConvolve

/-- A 3-component real vector (`numpy` array of shape (3,)). -/
structure Point3D where
  x : ℝ
  y : ℝ
  z : ℝ

/-- Componentwise subtraction `p - q` of 3-vectors. -/
noncomputable def psub (p q : Point3D) : Point3D :=
  ⟨p.x - q.x, p.y - q.y, p.z - q.z⟩

/-- `np.linalg.norm`: the Euclidean norm of a 3-vector. -/
noncomputable def norm3 (p : Point3D) : ℝ :=
  Real.sqrt (p.x ^ 2 + p.y ^ 2 + p.z ^ 2)

/-- `torus_point(theta, phi, R, r)`: Euclidean coordinates of a torus point. -/
noncomputable def torus_point (theta phi R r : ℝ) : Point3D :=
  ⟨(R + r * Real.cos theta) * Real.cos phi,
   (R + r * Real.cos theta) * Real.sin phi,
   r * Real.sin theta⟩

/-- `log_kernel(point1, point2) = log(norm(point2 - point1))`. -/
noncomputable def log_kernel (point1 point2 : Point3D) : ℝ :=
  Real.log (norm3 (psub point2 point1))

/-- `exp_kernel(point1, point2) = exp(-norm(point2 - point1))`. -/
noncomputable def exp_kernel (point1 point2 : Point3D) : ℝ :=
  Real.exp (-norm3 (psub point2 point1))

/-- `square_distance_kernel(point1, point2) = norm(point2 - point1)**2`. -/
noncomputable def square_distance_kernel (point1 point2 : Point3D) : ℝ :=
  norm3 (psub point2 point1) ^ 2

/-- `matrix_entry(i, j, N, kernel_func, R, r, self_interact)`. -/
noncomputable def matrix_entry (i j N : ℕ) (kernel_func : Point3D → Point3D → ℝ)
    (R r : ℝ) (self_interact : Bool) : ℝ :=
  let theta1 : ℝ := ((i / N : ℕ) : ℝ) * (2 * Real.pi / N)
  let phi1 : ℝ := ((i % N : ℕ) : ℝ) * (2 * Real.pi / N)
  let point1 := torus_point theta1 phi1 R r
  let theta2 : ℝ := ((j / N : ℕ) : ℝ) * (2 * Real.pi / N)
  let phi2 : ℝ := ((j % N : ℕ) : ℝ) * (2 * Real.pi / N)
  let point2 := torus_point theta2 phi2 R r
  if i = j ∧ self_interact = false then 0
  else (2 * Real.pi / N) ^ 2 * kernel_func point1 point2 * r * (R + r * Real.cos theta2)

/-- `full_matrix(N, kernel_func, lamb, R, r, self_interact)`: the dense
`(I + lamb*K)` matrix, as an index function on `{0,…,N²-1}²`. -/
noncomputable def full_matrix (N : ℕ) (kernel_func : Point3D → Point3D → ℝ)
    (lamb R r : ℝ) (self_interact : Bool) : ℕ → ℕ → ℝ :=
  fun i j =>
    lamb * matrix_entry i j N kernel_func R r self_interact +
      (if i = j then 1 else 0)

/-- `get_filter(N, kernel_func, lamb, R, r, self_interact)`: the length-N²
list `[lamb*entry(0,0)+1] ++ [lamb*entry(0,j) for j in 1..N²-1]`. -/
noncomputable def get_filter (N : ℕ) (kernel_func : Point3D → Point3D → ℝ)
    (lamb R r : ℝ) (self_interact : Bool) : List ℝ :=
  (lamb * matrix_entry 0 0 N kernel_func R r self_interact + 1) ::
    (List.range' 1 (N ^ 2 - 1)).map
      (fun j => lamb * matrix_entry 0 j N kernel_func R r self_interact)

/-- The all-zero integer matrix, used as `getD` default. -/
def zero_mat : ℕ → ℕ → ℤ := fun _ _ => 0

/-- The local list `A` of `get_cyclic_reps`: the rows of the reversed
identity (`for i in range(N-1,-1,-1): A.append([1 if j == i else 0 ...])`). -/
def cyclicA (N : ℕ) : List (ℕ → ℤ) :=
  ((List.range N).reverse).map (fun i => fun j => if j = i then 1 else 0)

/-- The local list `perms` of `get_cyclic_reps`:
`perms[i] = np.array([A[i-j] for j in range(N)])`, where Python's negative
index `A[i-j]` wraps around, i.e. reads `A[(i + N - j) % N]`. -/
def cyclicPerms (N : ℕ) : List (ℕ → ℕ → ℤ) :=
  (List.range N).map
    (fun i => fun j l => (cyclicA N).getD ((i + N - j) % N) (fun _ => 0) l)

/-- `get_cyclic_reps(N)`: build `A` and `perms` as above, then
`I = perms.pop(-1); return [I] + perms` (the popped last element in front). -/
def get_cyclic_reps (N : ℕ) : List (ℕ → ℕ → ℤ) :=
  (cyclicPerms N).drop (N - 1) ++ (cyclicPerms N).take (N - 1)

/-- `np.kron(mat1, mat2)` for two N×N matrices, under flattened indexing:
entry `(i,j)` is `mat1[i/N, j/N] * mat2[i%N, j%N]`. -/
def np_kron (N : ℕ) (mat1 mat2 : ℕ → ℕ → ℤ) : ℕ → ℕ → ℤ :=
  fun i j => mat1 (i / N) (j / N) * mat2 (i % N) (j % N)

/-- `np.argmax` over the first `n` entries of `v`: index of the first
occurrence of the maximum (the fold keeps the earlier index on ties). -/
def np_argmax (v : ℕ → ℤ) (n : ℕ) : ℕ :=
  (List.range n).foldl (fun best i => if v best < v i then i else best) 0

/-- `get_cyclic_product_reps(N)`: Kronecker products of all pairs of cyclic
representations, sorted (stably) by `np.argmax(mat[:,0])`, each transposed. -/
def get_cyclic_product_reps (N : ℕ) : List (ℕ → ℕ → ℤ) :=
  let group1 := get_cyclic_reps N
  let group2 := get_cyclic_reps N
  let reps := group1.flatMap (fun mat1 => group2.map (fun mat2 => np_kron N mat1 mat2))
  let sorted_reps := List.insertionSort
    (fun m1 m2 => np_argmax (fun i => m1 i 0) (N ^ 2) ≤ np_argmax (fun i => m2 i 0) (N ^ 2))
    reps
  sorted_reps.map (fun rep => fun i j => rep j i)

/-- `f(theta, phi)`: the reference solution on the torus. -/
noncomputable def f (theta phi : ℝ) : ℝ :=
  (theta - Real.pi) ^ 2 + (phi - Real.pi) ^ 2

/-- `g(theta, phi, lamb, r)`: the analytic forcing function (R = 1 fixed). -/
noncomputable def g (theta phi lamb r : ℝ) : ℝ :=
  (theta - Real.pi) ^ 2 + (phi - Real.pi) ^ 2 + lamb * 2 / 3 * Real.pi ^ 2 * r *
    (8 * Real.pi ^ 2 + 48 * r + (3 + 12 * Real.pi ^ 2) * r ^ 2 + 24 * r ^ 3
      + (8 * Real.pi ^ 2 * r + 24 * r ^ 2) * Real.cos theta
      + (-24 - 12 * r ^ 2) * Real.cos phi
      + (-12 * r ^ 3 - 24 * r) * Real.cos theta * Real.cos phi)

/-- `discretized_f(N)`: nested loop `for i in range(N): for j in range(N):
append f(i*2*pi/N, j*2*pi/N)`. -/
noncomputable def discretized_f (N : ℕ) : List ℝ :=
  (List.range N).flatMap (fun (i : ℕ) =>
    (List.range N).map (fun (j : ℕ) =>
      f ((i : ℝ) * 2 * Real.pi / N) ((j : ℝ) * 2 * Real.pi / N)))

/-- `discretized_g(lamb, r, N)`: nested loop `for i in range(N): for j in
range(N): append g(i*2*pi/N, j*2*pi/N, lamb, r)`. -/
noncomputable def discretized_g (lamb r : ℝ) (N : ℕ) : List ℝ :=
  (List.range N).flatMap (fun (i : ℕ) =>
    (List.range N).map (fun (j : ℕ) =>
      g ((i : ℝ) * 2 * Real.pi / N) ((j : ℝ) * 2 * Real.pi / N) lamb r))

/-- The driver's accumulation `approx = Σ_{m<N²} filter[m] * reps[m]`,
with `reps = get_cyclic_product_reps(N)` and `filter = get_filter(...)`. -/
noncomputable def approx_matrix (N : ℕ) (kernel_func : Point3D → Point3D → ℝ)
    (lamb R r : ℝ) (self_interact : Bool) : ℕ → ℕ → ℝ :=
  fun a b => ∑ m ∈ Finset.range (N ^ 2),
    (get_filter N kernel_func lamb R r self_interact).getD m 0 *
      (((get_cyclic_product_reps N).getD m zero_mat a b : ℤ) : ℝ)

/-- The grid sizes the driver loop actually iterates over
(`for index, N in enumerate([4,6,8,10,12,14,16,32])`). -/
def tested_N_values : List ℕ := [4, 6, 8, 10, 12, 14, 16, 32]

/-- The literal x-axis list passed to the final plot
(`plt.plot([4,8,12,16,20,24,28,32], err, '-o')`). -/
def plot_x_values : List ℕ := [4, 8, 12, 16, 20, 24, 28, 32]

/-- `M` restricted to `{0,…,N-1}²` is a permutation matrix: entries are 0/1,
with exactly one 1 in every row and every column. -/
def IsPermMatrix (N : ℕ) (M : ℕ → ℕ → ℤ) : Prop :=
  (∀ i < N, ∀ j < N, M i j = 0 ∨ M i j = 1) ∧
  (∀ i < N, ∃! j, j < N ∧ M i j = 1) ∧
  (∀ j < N, ∃! i, i < N ∧ M i j = 1)

/-- `A @ B` for N×N matrices under index functions. -/
def mat_mul (N : ℕ) (A B : ℕ → ℕ → ℤ) : ℕ → ℕ → ℤ :=
  fun i j => ∑ l ∈ Finset.range N, A i l * B l j

/-- The flattened index of the group difference of grid indices `i`, `j`:
`((θj - θi) mod N) * N + ((φj - φi) mod N)`. -/
def group_diff_index (N i j : ℕ) : ℕ :=
  ((j / N + N - i / N) % N) * N + (j % N + N - i % N) % N

/-- The action of the group element `(0, b)` of `ℤ_N × ℤ_N` on a flattened
grid index: the θ-index `i div N` is kept, the φ-index `i mod N` is shifted
by `b` mod `N`. -/
def phi_shift (N b i : ℕ) : ℕ :=
  i / N * N + (i % N + b) % N

/-! ### General helper lemmas -/

/-- Reduce `a % N` when `a < 2 * N`: subtract `N` once or not at all. -/
theorem mod_of_lt_two_mul {a N : ℕ} (h : a < 2 * N) :
    a % N = if a < N then a else a - N := by
  split
  · exact Nat.mod_eq_of_lt (by assumption)
  · rw [Nat.mod_eq_sub_mod (by omega)]
    exact Nat.mod_eq_of_lt (by omega)

/-- Indexing into a flat double loop: entry `m` of
`[h i j for i in range a for j in range b]` is `h (m / b) (m % b)`. -/
theorem getD_flatMap_range {α : Type} (b : ℕ) (h : ℕ → ℕ → α) (d : α) :
    ∀ a m : ℕ, m < a * b →
      ((List.range a).flatMap (fun i => (List.range b).map (h i))).getD m d
        = h (m / b) (m % b) := by
  intro a
  induction a with
  | zero => intro m hm; omega
  | succ a ih =>
    intro m hm
    rw [Nat.succ_mul] at hm
    have hb : 0 < b := by
      rcases Nat.eq_zero_or_pos b with h0 | h0
      · subst h0; simp at hm
      · exact h0
    have hba : b * a = a * b := Nat.mul_comm b a
    have hlen : ((List.range a).flatMap (fun i => (List.range b).map (h i))).length
        = a * b := by
      simp [List.length_flatMap, Function.comp_def, List.map_const', List.sum_replicate,
        smul_eq_mul, mul_comm]
    rw [List.range_succ, List.flatMap_append]
    simp only [List.flatMap_cons, List.flatMap_nil, List.append_nil]
    by_cases hm2 : m < a * b
    · rw [List.getD_append _ _ _ _ (hlen.symm ▸ hm2)]
      exact ih m hm2
    · have hmge : a * b ≤ m := by omega
      rw [List.getD_append_right _ _ _ _ (hlen.symm ▸ hmge), hlen]
      have hdiv : m / b = a := by
        conv_lhs => rw [show m = b * a + (m - a * b) by rw [hba]; omega]
        rw [Nat.mul_add_div hb]
        have : (m - a * b) / b = 0 := Nat.div_eq_of_lt (by omega)
        omega
      have hmod : m % b = m - a * b := by
        conv_lhs => rw [show m = b * a + (m - a * b) by rw [hba]; omega]
        rw [Nat.mul_add_mod]
        exact Nat.mod_eq_of_lt (by omega)
      rw [hdiv, hmod]
      rw [List.getD_eq_getElem _ _ (by simp only [List.length_map, List.length_range]; omega),
        List.getElem_map, List.getElem_range]

/-! ### Claim theorems: geometry, kernels, matrix entry, driver lists -/

/-- **C7.** Geometry round-trip: for all real `theta`, `phi`, `R`, `r`, the
point `p = torus_point theta phi R r` satisfies
`p.x² + p.y² = (R + r·cos theta)²`, a value independent of `phi`
(`torus_point` is a total function of its four real arguments). -/
theorem torus_point_xy_normsq (theta phi R r : ℝ) :
    (torus_point theta phi R r).x ^ 2 + (torus_point theta phi R r).y ^ 2
        = (R + r * Real.cos theta) ^ 2 ∧
    ∀ phi2 : ℝ,
      (torus_point theta phi R r).x ^ 2 + (torus_point theta phi R r).y ^ 2
        = (torus_point theta phi2 R r).x ^ 2 + (torus_point theta phi2 R r).y ^ 2 := by
  have key : ∀ p : ℝ, (torus_point theta p R r).x ^ 2 + (torus_point theta p R r).y ^ 2
      = (R + r * Real.cos theta) ^ 2 := by
    intro p
    simp only [torus_point]
    linear_combination (R + r * Real.cos theta) ^ 2 * Real.sin_sq_add_cos_sq p
  exact ⟨key phi, fun phi2 => (key phi).trans (key phi2).symm⟩

/-- **C8.** Kernel symmetry: for every pair of 3D points,
`square_distance_kernel p1 p2 = square_distance_kernel p2 p1` and
`exp_kernel p1 p2 = exp_kernel p2 p1`. -/
theorem kernel_symmetry (p1 p2 : Point3D) :
    square_distance_kernel p1 p2 = square_distance_kernel p2 p1 ∧
    exp_kernel p1 p2 = exp_kernel p2 p1 := by
  have hnorm : norm3 (psub p2 p1) = norm3 (psub p1 p2) := by
    simp only [norm3, psub]
    congr 1
    ring
  constructor
  · simp only [square_distance_kernel, hnorm]
  · simp only [exp_kernel, hnorm]

/-- **C5.** `matrix_entry i j N kernel R r self_interact` returns 0 when
`i = j` with `self_interact = false`, and otherwise
`(2π/N)² · kernel p1 p2 · r · (R + r·cos θ2)`, where the angles are decoded
as `θ = (idx div N)·(2π/N)`, `φ = (idx mod N)·(2π/N)` and the weight uses the
second (source) point's `θ2`. -/
theorem matrix_entry_spec (i j N : ℕ) (kernel_func : Point3D → Point3D → ℝ)
    (R r : ℝ) (self_interact : Bool) :
    matrix_entry i j N kernel_func R r self_interact =
      if i = j ∧ self_interact = false then 0
      else (2 * Real.pi / N) ^ 2 *
        kernel_func
          (torus_point (((i / N : ℕ) : ℝ) * (2 * Real.pi / N))
            (((i % N : ℕ) : ℝ) * (2 * Real.pi / N)) R r)
          (torus_point (((j / N : ℕ) : ℝ) * (2 * Real.pi / N))
            (((j % N : ℕ) : ℝ) * (2 * Real.pi / N)) R r)
        * r * (R + r * Real.cos (((j / N : ℕ) : ℝ) * (2 * Real.pi / N))) := rfl

/-- **C9.** The list of grid sizes the driver iterates over,
`[4,6,8,10,12,14,16,32]`, is not the literal x-axis list of the plot,
`[4,8,12,16,20,24,28,32]`; both have length 8 and they agree exactly at
indices 0 and 7. -/
theorem driver_plot_lists_mismatch :
    tested_N_values.length = 8 ∧ plot_x_values.length = 8 ∧
    tested_N_values ≠ plot_x_values ∧
    (∀ k < 8, tested_N_values.getD k 0 = plot_x_values.getD k 0 ↔ k = 0 ∨ k = 7) := by
  refine ⟨rfl, rfl, by decide, by decide⟩

/-- Entry `j` of the filter list, in closed form. -/
theorem get_filter_getD (N : ℕ) (kernel_func : Point3D → Point3D → ℝ)
    (lamb R r : ℝ) (self_interact : Bool) :
    ∀ j < N ^ 2, (get_filter N kernel_func lamb R r self_interact).getD j 0 =
      if j = 0 then lamb * matrix_entry 0 0 N kernel_func R r self_interact + 1
      else lamb * matrix_entry 0 j N kernel_func R r self_interact := by
  intro j hj
  match j with
  | 0 => rfl
  | (j' + 1) =>
    simp only [get_filter, List.getD_cons_succ]
    rw [List.getD_eq_getElem _ _ (by simp only [List.length_map, List.length_range']; omega),
      List.getElem_map, List.getElem_range']
    have h1 : 1 + 1 * j' = j' + 1 := by omega
    rw [h1, if_neg (by omega)]

/-- **C6.** `get_filter` is the length-N² first row of `full_matrix`:
entry 0 is `lamb*matrix_entry(0,0,...) + 1` and entry `j ≥ 1` is
`lamb*matrix_entry(0,j,...)`, which is `full_matrix(...)[0,j]`. -/
theorem get_filter_spec (N : ℕ) (hN : 1 ≤ N) (kernel_func : Point3D → Point3D → ℝ)
    (lamb R r : ℝ) (self_interact : Bool) :
    (get_filter N kernel_func lamb R r self_interact).length = N ^ 2 ∧
    (get_filter N kernel_func lamb R r self_interact).getD 0 0 =
      lamb * matrix_entry 0 0 N kernel_func R r self_interact + 1 ∧
    (∀ j, 1 ≤ j → j < N ^ 2 →
      (get_filter N kernel_func lamb R r self_interact).getD j 0 =
        lamb * matrix_entry 0 j N kernel_func R r self_interact) ∧
    (∀ j < N ^ 2,
      (get_filter N kernel_func lamb R r self_interact).getD j 0 =
        full_matrix N kernel_func lamb R r self_interact 0 j) := by
  have hN2 : 1 ≤ N ^ 2 := Nat.one_le_pow _ _ (by omega)
  refine ⟨?_, rfl, ?_, ?_⟩
  · simp only [get_filter, List.length_cons, List.length_map, List.length_range']
    omega
  · intro j h1 h2
    rw [get_filter_getD N kernel_func lamb R r self_interact j h2, if_neg (by omega)]
  · intro j hj
    rw [get_filter_getD N kernel_func lamb R r self_interact j hj]
    by_cases h0 : j = 0
    · subst h0
      simp [full_matrix]
    · rw [if_neg h0]
      simp only [full_matrix]
      rw [if_neg (Ne.symm h0), add_zero]

/-- Witness for C6 at `N = 2`, square-distance kernel, `λ = R = r = 1`. -/
theorem get_filter_spec_witness :
    1 ≤ 2 ∧
    ((get_filter 2 square_distance_kernel 1 1 1 true).length = 2 ^ 2 ∧
    (get_filter 2 square_distance_kernel 1 1 1 true).getD 0 0 =
      1 * matrix_entry 0 0 2 square_distance_kernel 1 1 true + 1 ∧
    (∀ j, 1 ≤ j → j < 2 ^ 2 →
      (get_filter 2 square_distance_kernel 1 1 1 true).getD j 0 =
        1 * matrix_entry 0 j 2 square_distance_kernel 1 1 true) ∧
    (∀ j < 2 ^ 2,
      (get_filter 2 square_distance_kernel 1 1 1 true).getD j 0 =
        full_matrix 2 square_distance_kernel 1 1 1 true 0 j)) :=
  ⟨by norm_num, get_filter_spec 2 (by norm_num) square_distance_kernel 1 1 1 true⟩

/-- **C10.** Both discretized vectors use the flattened index convention
`i = θ_idx·N + φ_idx` that `matrix_entry` uses: entry `m` of
`discretized_f N` is `f((m div N)·(2π/N), (m mod N)·(2π/N))`, and entry `m`
of `discretized_g lamb r N` is `g((m div N)·(2π/N), (m mod N)·(2π/N), lamb, r)`. -/
theorem discretized_index_convention (N : ℕ) (lamb r : ℝ) (m : ℕ) (hm : m < N ^ 2) :
    (discretized_f N).getD m 0 =
      f (((m / N : ℕ) : ℝ) * (2 * Real.pi / N)) (((m % N : ℕ) : ℝ) * (2 * Real.pi / N)) ∧
    (discretized_g lamb r N).getD m 0 =
      g (((m / N : ℕ) : ℝ) * (2 * Real.pi / N)) (((m % N : ℕ) : ℝ) * (2 * Real.pi / N))
        lamb r := by
  have hm' : m < N * N := by rw [← pow_two]; exact hm
  constructor
  · simp only [discretized_f]
    rw [getD_flatMap_range N _ 0 N m hm']
    congr 1 <;> ring
  · simp only [discretized_g]
    rw [getD_flatMap_range N _ 0 N m hm']
    congr 1 <;> ring

/-- Witness for C10 at `N = 2`, `m = 3`, `λ = r = 1`. -/
theorem discretized_index_convention_witness :
    3 < 2 ^ 2 ∧
    ((discretized_f 2).getD 3 0 =
      f (((3 / 2 : ℕ) : ℝ) * (2 * Real.pi / ((2 : ℕ) : ℝ)))
        (((3 % 2 : ℕ) : ℝ) * (2 * Real.pi / ((2 : ℕ) : ℝ))) ∧
    (discretized_g 1 1 2).getD 3 0 =
      g (((3 / 2 : ℕ) : ℝ) * (2 * Real.pi / ((2 : ℕ) : ℝ)))
        (((3 % 2 : ℕ) : ℝ) * (2 * Real.pi / ((2 : ℕ) : ℝ))) 1 1) :=
  ⟨by norm_num, discretized_index_convention 2 1 1 3 (by norm_num)⟩

/-! ### The cyclic group representations -/

/-- Reduce `a % N` when `a < 3 * N`. -/
theorem mod_of_lt_three_mul {a N : ℕ} (_hN : 1 ≤ N) (h : a < 3 * N) :
    a % N = if a < N then a else if a < 2 * N then a - N else a - 2 * N := by
  split
  · exact Nat.mod_eq_of_lt (by assumption)
  · split
    · rw [Nat.mod_eq_sub_mod (by omega)]
      exact Nat.mod_eq_of_lt (by omega)
    · rw [Nat.mod_eq_sub_mod (by omega), Nat.mod_eq_sub_mod (by omega)]
      have : a - N - N = a - 2 * N := by omega
      rw [this]
      exact Nat.mod_eq_of_lt (by omega)

/-- `(y + s) % N` only depends on `s % N` when `y < N`. -/
theorem add_mod_reduce (N s y : ℕ) (hy : y < N) : (y + s) % N = (y + s % N) % N := by
  conv_lhs => rw [Nat.add_mod]
  rw [Nat.mod_eq_of_lt hy]

/-- `y ↦ (y + s) % N` is injective on `{0,…,N-1}`. -/
theorem add_mod_inj (N s : ℕ) {y z : ℕ} (hy : y < N) (hz : z < N)
    (h : (y + s) % N = (z + s) % N) : y = z := by
  have hN : 1 ≤ N := by omega
  have ht : s % N < N := Nat.mod_lt _ (by omega)
  rw [add_mod_reduce N s y hy, add_mod_reduce N s z hz] at h
  rw [mod_of_lt_two_mul (show y + s % N < 2 * N by omega),
    mod_of_lt_two_mul (show z + s % N < 2 * N by omega)] at h
  split_ifs at h <;> omega

/-- The shift-by-`s` map has `(l + (N - s % N)) % N` as a left inverse point. -/
theorem add_shift_mod_cancel (N s l : ℕ) (hN : 1 ≤ N) (hl : l < N) :
    ((l + (N - s % N)) % N + s) % N = l := by
  have ht : s % N < N := Nat.mod_lt _ (by omega)
  have hj : (l + (N - s % N)) % N < N := Nat.mod_lt _ (by omega)
  rw [add_mod_reduce N s _ hj]
  have houter : (l + (N - s % N)) % N + s % N < 2 * N := by omega
  rw [mod_of_lt_two_mul houter]
  have hinner := mod_of_lt_two_mul (show l + (N - s % N) < 2 * N by omega)
  rw [hinner]
  split_ifs <;> omega

/-- `IsPermMatrix` only depends on the entries below the dimension. -/
theorem IsPermMatrix_congr {N : ℕ} {M M' : ℕ → ℕ → ℤ}
    (h : ∀ i < N, ∀ j < N, M i j = M' i j) (hM : IsPermMatrix N M) :
    IsPermMatrix N M' := by
  obtain ⟨h01, hrow, hcol⟩ := hM
  refine ⟨fun i hi j hj => by rw [← h i hi j hj]; exact h01 i hi j hj, ?_, ?_⟩
  · intro i hi
    obtain ⟨j, ⟨hj, hj1⟩, hju⟩ := hrow i hi
    exact ⟨j, ⟨hj, by rw [← h i hi j hj]; exact hj1⟩,
      fun y ⟨hy, hy1⟩ => hju y ⟨hy, by rw [h i hi y hy]; exact hy1⟩⟩
  · intro j hj
    obtain ⟨i, ⟨hi, hi1⟩, hiu⟩ := hcol j hj
    exact ⟨i, ⟨hi, by rw [← h i hi j hj]; exact hi1⟩,
      fun y ⟨hy, hy1⟩ => hiu y ⟨hy, by rw [h y hy j hj]; exact hy1⟩⟩

/-- The cyclic shift indicator matrix is a permutation matrix. -/
theorem shift_indicator_perm (N s : ℕ) (hN : 1 ≤ N) :
    IsPermMatrix N (fun j l => if l = (j + s) % N then 1 else 0) := by
  refine ⟨fun i _ j _ => ?_, fun i hi => ?_, fun l hl => ?_⟩
  · dsimp only
    split_ifs <;> simp
  · refine ⟨(i + s) % N, ⟨Nat.mod_lt _ (by omega), by simp⟩, ?_⟩
    rintro y ⟨hy, hy1⟩
    dsimp only at hy1
    by_cases h : y = (i + s) % N
    · exact h
    · rw [if_neg h] at hy1
      exact absurd hy1 (by norm_num)
  · refine ⟨(l + (N - s % N)) % N, ⟨Nat.mod_lt _ (by omega), ?_⟩, ?_⟩
    · dsimp only
      rw [if_pos (add_shift_mod_cancel N s l hN hl).symm]
    · rintro y ⟨hy, hy1⟩
      dsimp only at hy1
      have hyl : l = (y + s) % N := by
        by_contra h
        rw [if_neg h] at hy1
        exact absurd hy1 (by norm_num)
      refine add_mod_inj N s hy (Nat.mod_lt _ (by omega)) ?_
      rw [add_shift_mod_cancel N s l hN hl, ← hyl]

/-- The length of `perms` is `N`. -/
theorem length_cyclicPerms (N : ℕ) : (cyclicPerms N).length = N := by
  simp [cyclicPerms]

/-- Row `u` of `A[t]` (for `t < N`): the reversed identity has its 1 in
column `N - 1 - t`. -/
theorem cyclicA_getD (N t : ℕ) (ht : t < N) (u : ℕ) :
    (cyclicA N).getD t (fun _ => 0) u = if u = N - 1 - t then 1 else 0 := by
  have hlen : (cyclicA N).length = N := by simp [cyclicA]
  have h1 := List.getD_eq_getElem (cyclicA N) (fun _ => 0)
    (show t < (cyclicA N).length by omega)
  rw [h1]
  simp only [cyclicA]
  rw [List.getElem_map, List.getElem_reverse]
  simp only [List.getElem_range, List.length_range]

/-- `perms[i]` in closed form. -/
theorem cyclicPerms_getD (N i : ℕ) (hi : i < N) :
    (cyclicPerms N).getD i zero_mat
      = fun j l => (cyclicA N).getD ((i + N - j) % N) (fun _ => 0) l := by
  have hbound : i < ((List.range N).map
      (fun i => fun j l => (cyclicA N).getD ((i + N - j) % N) (fun _ => 0) l)).length := by
    simp only [List.length_map, List.length_range]
    omega
  simp only [cyclicPerms]
  rw [List.getD_eq_getElem _ _ hbound, List.getElem_map, List.getElem_range]

/-- Entry `(j, l)` (with `j, l < N`) of the `k`-th cyclic representation:
the row-`j` one sits in column `(j + (N - k)) % N`. -/
theorem get_cyclic_reps_getD (N k : ℕ) (hk : k < N) :
    ∀ j < N, ∀ l < N,
      (get_cyclic_reps N).getD k zero_mat j l
        = if l = (j + (N - k)) % N then 1 else 0 := by
  intro j hj l hl
  have hN : 1 ≤ N := by omega
  have hplen := length_cyclicPerms N
  have hdlen : ((cyclicPerms N).drop (N - 1)).length = 1 := by
    rw [List.length_drop, hplen]; omega
  have hlen2 : (((cyclicPerms N).drop (N - 1)) ++ (cyclicPerms N).take (N - 1)).length
      = N := by
    rw [List.length_append, List.length_take, hdlen, hplen]; omega
  have key : ∀ i, i < N → (cyclicPerms N).getD i zero_mat j l
      = if l = N - 1 - ((i + N - j) % N) then 1 else 0 := by
    intro i hi
    rw [cyclicPerms_getD N i hi]
    exact cyclicA_getD N ((i + N - j) % N) (Nat.mod_lt _ (by omega)) l
  simp only [get_cyclic_reps]
  by_cases hk0 : k = 0
  · subst hk0
    have hb2 : 0 < (((cyclicPerms N).drop (N - 1)) ++ (cyclicPerms N).take (N - 1)).length := by
      rw [hlen2]; omega
    have hb3 : 0 < ((cyclicPerms N).drop (N - 1)).length := by rw [hdlen]; omega
    have hb4 : N - 1 + 0 < (cyclicPerms N).length := by rw [hplen]; omega
    rw [List.getD_eq_getElem _ _ hb2, List.getElem_append_left hb3, List.getElem_drop,
      ← List.getD_eq_getElem (cyclicPerms N) zero_mat hb4, Nat.add_zero,
      key (N - 1) (by omega)]
    have harith : N - 1 - ((N - 1 + N - j) % N) = (j + (N - 0)) % N := by
      rw [mod_of_lt_two_mul (show N - 1 + N - j < 2 * N by omega),
        mod_of_lt_two_mul (show j + (N - 0) < 2 * N by omega)]
      split_ifs <;> omega
    rw [harith]
  · have hb2 : k < (((cyclicPerms N).drop (N - 1)) ++ (cyclicPerms N).take (N - 1)).length := by
      rw [hlen2]; omega
    have hb3 : ((cyclicPerms N).drop (N - 1)).length ≤ k := by rw [hdlen]; omega
    rw [List.getD_append_right _ _ _ _ hb3, hdlen]
    have hb4 : k - 1 < (cyclicPerms N).length := by rw [hplen]; omega
    have hb5 : k - 1 < ((cyclicPerms N).take (N - 1)).length := by
      rw [List.length_take, length_cyclicPerms, inf_eq_left.mpr (show N - 1 ≤ N by omega)]
      omega
    rw [List.getD_eq_getElem _ _ hb5, List.getElem_take,
      ← List.getD_eq_getElem (cyclicPerms N) zero_mat hb4, key (k - 1) (by omega)]
    have harith : N - 1 - ((k - 1 + N - j) % N) = (j + (N - k)) % N := by
      rw [mod_of_lt_two_mul (show k - 1 + N - j < 2 * N by omega),
        mod_of_lt_two_mul (show j + (N - k) < 2 * N by omega)]
      split_ifs <;> omega
    rw [harith]

/-- **C3.** `get_cyclic_reps N` is a list of exactly `N` permutation matrices
of size `N×N`, with index 0 the identity, closed under matrix product:
`reps[k] @ reps[l] = reps[(k+l) mod N]`. -/
theorem get_cyclic_reps_spec (N : ℕ) (hN : 1 ≤ N) :
    (get_cyclic_reps N).length = N ∧
    (∀ k < N, IsPermMatrix N ((get_cyclic_reps N).getD k zero_mat)) ∧
    (∀ j < N, ∀ l < N,
      (get_cyclic_reps N).getD 0 zero_mat j l = if j = l then 1 else 0) ∧
    (∀ k < N, ∀ l < N, ∀ i < N, ∀ j < N,
      mat_mul N ((get_cyclic_reps N).getD k zero_mat)
          ((get_cyclic_reps N).getD l zero_mat) i j
        = (get_cyclic_reps N).getD ((k + l) % N) zero_mat i j) := by
  refine ⟨?_, ?_, ?_, ?_⟩
  · simp only [get_cyclic_reps, List.length_append, List.length_drop, List.length_take,
      length_cyclicPerms]
    rw [inf_eq_left.mpr (show N - 1 ≤ N by omega)]
    omega
  · intro k hk
    exact IsPermMatrix_congr
      (fun i hi j hj => (get_cyclic_reps_getD N k hk i hi j hj).symm)
      (shift_indicator_perm N (N - k) hN)
  · intro j hj l hl
    rw [get_cyclic_reps_getD N 0 (by omega) j hj l hl]
    have : (j + (N - 0)) % N = j := by
      rw [mod_of_lt_two_mul (show j + (N - 0) < 2 * N by omega)]
      split_ifs <;> omega
    rw [this]
    split_ifs <;> omega
  · intro k hk l hl i hi j hj
    have hmem : (i + (N - k)) % N < N := Nat.mod_lt _ (by omega)
    have lhs_eq : mat_mul N ((get_cyclic_reps N).getD k zero_mat)
        ((get_cyclic_reps N).getD l zero_mat) i j
        = if j = ((i + (N - k)) % N + (N - l)) % N then 1 else 0 := by
      unfold mat_mul
      rw [Finset.sum_congr rfl (fun x hx => by
        rw [get_cyclic_reps_getD N k hk i hi x (Finset.mem_range.mp hx),
          get_cyclic_reps_getD N l hl x (Finset.mem_range.mp hx) j hj])]
      simp only [ite_mul, one_mul, zero_mul]
      rw [Finset.sum_ite_eq' (Finset.range N) ((i + (N - k)) % N)
        (fun x => if j = (x + (N - l)) % N then 1 else 0)]
      rw [if_pos (Finset.mem_range.mpr hmem)]
    rw [lhs_eq, get_cyclic_reps_getD N ((k + l) % N) (Nat.mod_lt _ (by omega)) i hi j hj]
    have : ((i + (N - k)) % N + (N - l)) % N = (i + (N - (k + l) % N)) % N := by
      rw [Nat.mod_add_mod]
      rw [mod_of_lt_two_mul (show k + l < 2 * N by omega)]
      split_ifs with h1
      · rw [mod_of_lt_three_mul hN (show i + (N - k) + (N - l) < 3 * N by omega),
          mod_of_lt_three_mul hN (show i + (N - (k + l)) < 3 * N by omega)]
        split_ifs <;> omega
      · rw [mod_of_lt_three_mul hN (show i + (N - k) + (N - l) < 3 * N by omega),
          mod_of_lt_three_mul hN (show i + (N - (k + l - N)) < 3 * N by omega)]
        split_ifs <;> omega
    rw [this]

/-- Witness for C3 at `N = 3`. -/
theorem get_cyclic_reps_spec_witness :
    1 ≤ 3 ∧
    ((get_cyclic_reps 3).length = 3 ∧
    (∀ k < 3, IsPermMatrix 3 ((get_cyclic_reps 3).getD k zero_mat)) ∧
    (∀ j < 3, ∀ l < 3,
      (get_cyclic_reps 3).getD 0 zero_mat j l = if j = l then 1 else 0) ∧
    (∀ k < 3, ∀ l < 3, ∀ i < 3, ∀ j < 3,
      mat_mul 3 ((get_cyclic_reps 3).getD k zero_mat)
          ((get_cyclic_reps 3).getD l zero_mat) i j
        = (get_cyclic_reps 3).getD ((k + l) % 3) zero_mat i j)) :=
  ⟨by norm_num, get_cyclic_reps_spec 3 (by norm_num)⟩

/-! ### The product representations -/

/-- Any list is the range-indexed map of its `getD` entries. -/
theorem list_eq_range_map {α : Type} (L : List α) (d : α) :
    L = (List.range L.length).map (fun i => L.getD i d) := by
  apply List.ext_getElem
  · simp
  · intro n h1 h2
    rw [List.getElem_map, List.getElem_range]
    exact (List.getD_eq_getElem L d h1).symm

/-- The flat double loop over two ranges, as a single range map. -/
theorem flatMap_map_range_eq {α : Type} (h : ℕ → ℕ → α) (a b : ℕ) :
    (List.range a).flatMap (fun i => (List.range b).map (h i))
      = (List.range (a * b)).map (fun m => h (m / b) (m % b)) := by
  apply List.ext_getElem
  · simp only [List.length_flatMap, Function.comp_def, List.map_const', List.sum_replicate,
      smul_eq_mul, List.length_range, List.length_map, mul_comm]
  · intro m h1 h2
    have hm : m < a * b := by simpa using h2
    rw [List.getElem_map, List.getElem_range,
      ← List.getD_eq_getElem _ (h 0 0) h1]
    exact getD_flatMap_range b h (h 0 0) a m hm

/-- `get_cyclic_reps N` has length `N`. -/
theorem length_get_cyclic_reps (N : ℕ) (hN : 1 ≤ N) :
    (get_cyclic_reps N).length = N := by
  simp only [get_cyclic_reps, List.length_append, List.length_drop, List.length_take,
    length_cyclicPerms]
  rw [inf_eq_left.mpr (show N - 1 ≤ N by omega)]
  omega

/-- One step of the `np.argmax` fold. -/
theorem np_argmax_succ (v : ℕ → ℤ) (n : ℕ) :
    np_argmax v (n + 1) = if v (np_argmax v n) < v n then n else np_argmax v n := by
  simp only [np_argmax]
  rw [List.range_succ, List.foldl_append]
  rfl

/-- `np.argmax` of an all-zero prefix is 0. -/
theorem np_argmax_all_zero (v : ℕ → ℤ) :
    ∀ n, (∀ i < n, v i = 0) → np_argmax v n = 0 := by
  intro n
  induction n with
  | zero => intro _; rfl
  | succ n ih =>
    intro h
    rw [np_argmax_succ, ih (fun i hi => h i (by omega))]
    by_cases hn : n = 0
    · subst hn
      rw [if_neg (lt_irrefl _)]
    · rw [h 0 (by omega), h n (by omega), if_neg (lt_irrefl _)]

/-- `np.argmax` of a 0/1 vector with a single 1 at `t` is `t`. -/
theorem np_argmax_single (v : ℕ → ℤ) (t : ℕ) (hv1 : v t = 1) :
    ∀ n, t < n → (∀ i < n, i ≠ t → v i = 0) → np_argmax v n = t := by
  intro n
  induction n with
  | zero => intro ht _; omega
  | succ n ih =>
    intro ht hv0
    rw [np_argmax_succ]
    rcases Nat.lt_succ_iff_lt_or_eq.mp ht with h | h
    · rw [ih h (fun i hi hne => hv0 i (by omega) hne), hv1,
        hv0 n (by omega) (by omega), if_neg (by norm_num)]
    · subst h
      rw [np_argmax_all_zero v t (fun i hi => hv0 i (by omega) (by omega))]
      by_cases ht0 : t = 0
      · subst ht0
        rw [if_neg (lt_irrefl _)]
      · rw [hv0 0 (by omega) (by omega), hv1, if_pos (by norm_num)]

/-- Decomposing a flattened index: `b = u*N + w` iff `(b div N, b mod N) = (u, w)`. -/
theorem flat_decomp_iff (N : ℕ) (hN : 1 ≤ N) {b u w : ℕ} (_hu : u < N) (hw : w < N) :
    b = u * N + w ↔ (b / N = u ∧ b % N = w) := by
  constructor
  · rintro rfl
    constructor
    · rw [show u * N + w = N * u + w by ring, Nat.mul_add_div (by omega),
        Nat.div_eq_of_lt hw]
      omega
    · rw [show u * N + w = N * u + w by ring, Nat.mul_add_mod]
      exact Nat.mod_eq_of_lt hw
  · rintro ⟨h1, h2⟩
    have h3 := Nat.div_add_mod b N
    rw [h1, h2] at h3
    rw [show u * N + w = N * u + w by ring]
    omega

/-- A flattened pair of indices below `N` is below `N*N`. -/
theorem flat_lt (N u w : ℕ) (hu : u < N) (hw : w < N) : u * N + w < N * N :=
  calc u * N + w < u * N + N := by omega
    _ = (u + 1) * N := by ring
    _ ≤ N * N := Nat.mul_le_mul_right N (by omega)

/-- Inverting the shift condition. -/
theorem prod_rep_cond_iff (N k : ℕ) (hk : k < N) {x y : ℕ} (hx : x < N) (hy : y < N) :
    x = (y + (N - k)) % N ↔ y = (x + k) % N := by
  rw [mod_of_lt_two_mul (show y + (N - k) < 2 * N by omega),
    mod_of_lt_two_mul (show x + k < 2 * N by omega)]
  split_ifs <;> omega

/-- Shifting forward by `k` then back by `N - k` is the identity below `N`. -/
theorem shift_cancel_right (N k x : ℕ) (hN : 1 ≤ N) (hk : k < N) (hx : x < N) :
    ((x + k) % N + (N - k)) % N = x := by
  have h1 : (x + k) % N < N := Nat.mod_lt _ (by omega)
  rw [mod_of_lt_two_mul (show (x + k) % N + (N - k) < 2 * N by omega)]
  have h2 := mod_of_lt_two_mul (show x + k < 2 * N by omega)
  rw [h2]
  split_ifs <;> omega

/-- The shift condition against row 0 pins the index to `k`. -/
theorem zero_eq_shift_iff (N k x : ℕ) (hk : k < N) (hx : x < N) :
    0 = (x + (N - k)) % N ↔ x = k := by
  rw [mod_of_lt_two_mul (show x + (N - k) < 2 * N by omega)]
  split_ifs <;> omega

/-- Column 0 of `np.kron(reps[k], reps[l])` is the indicator of row `k*N + l`. -/
theorem kron_col0 (N : ℕ) (hN : 1 ≤ N) (k l : ℕ) (hk : k < N) (hl : l < N) :
    ∀ i < N * N,
      np_kron N ((get_cyclic_reps N).getD k zero_mat)
        ((get_cyclic_reps N).getD l zero_mat) i 0
        = if i = k * N + l then 1 else 0 := by
  intro i hi
  have hidiv : i / N < N := by rw [Nat.div_lt_iff_lt_mul (by omega)]; exact hi
  have himod : i % N < N := Nat.mod_lt _ (by omega)
  simp only [np_kron, Nat.zero_div, Nat.zero_mod]
  rw [get_cyclic_reps_getD N k hk (i / N) hidiv 0 (by omega),
    get_cyclic_reps_getD N l hl (i % N) himod 0 (by omega)]
  have hc1 := zero_eq_shift_iff N k (i / N) hk hidiv
  have hc2 := zero_eq_shift_iff N l (i % N) hl himod
  have hc3 := @flat_decomp_iff N hN i k l hk hl
  by_cases c1 : i / N = k <;> by_cases c2 : i % N = l
  · rw [if_pos (hc1.mpr c1), if_pos (hc2.mpr c2), if_pos (hc3.mpr ⟨c1, c2⟩)]
    norm_num
  · rw [if_pos (hc1.mpr c1), if_neg (fun h => c2 (hc2.mp h)),
      if_neg (fun h => c2 (hc3.mp h).2)]
    norm_num
  · rw [if_neg (fun h => c1 (hc1.mp h)), if_neg (fun h => c1 (hc3.mp h).1)]
    norm_num
  · rw [if_neg (fun h => c1 (hc1.mp h)), if_neg (fun h => c1 (hc3.mp h).1)]
    norm_num

/-- The unsorted Kronecker-product list, reindexed over a single range. -/
theorem prod_reps_unsorted (N : ℕ) (hN : 1 ≤ N) :
    (get_cyclic_reps N).flatMap
        (fun mat1 => (get_cyclic_reps N).map (fun mat2 => np_kron N mat1 mat2))
      = (List.range (N * N)).map (fun m =>
          np_kron N ((get_cyclic_reps N).getD (m / N) zero_mat)
            ((get_cyclic_reps N).getD (m % N) zero_mat)) := by
  conv_lhs => rw [list_eq_range_map (get_cyclic_reps N) zero_mat]
  rw [List.flatMap_map]
  simp only [List.map_map, Function.comp_def]
  rw [length_get_cyclic_reps N hN]
  exact flatMap_map_range_eq
    (fun i j => np_kron N ((get_cyclic_reps N).getD i zero_mat)
      ((get_cyclic_reps N).getD j zero_mat)) N N

/-- The sort key of the `m`-th unsorted product representation is `m`. -/
theorem prod_key (N : ℕ) (hN : 1 ≤ N) (m : ℕ) (hm : m < N * N) :
    np_argmax (fun i =>
      np_kron N ((get_cyclic_reps N).getD (m / N) zero_mat)
        ((get_cyclic_reps N).getD (m % N) zero_mat) i 0) (N ^ 2) = m := by
  have hk : m / N < N := by rw [Nat.div_lt_iff_lt_mul (by omega)]; exact hm
  have hl : m % N < N := Nat.mod_lt _ (by omega)
  have hmd : m / N * N + m % N = m := by
    rw [show m / N * N + m % N = N * (m / N) + m % N by ring]
    exact Nat.div_add_mod m N
  refine np_argmax_single _ m ?_ (N ^ 2) (by rw [pow_two]; omega) ?_
  · dsimp only
    rw [kron_col0 N hN (m / N) (m % N) hk hl m hm, if_pos hmd.symm]
  · intro i hi hne
    dsimp only
    rw [kron_col0 N hN (m / N) (m % N) hk hl i (by rw [pow_two] at hi; exact hi),
      if_neg (fun h => hne (h.trans hmd))]

/-- The stable sort in `get_cyclic_product_reps` is the identity: the
unsorted list already has strictly increasing keys. -/
theorem get_cyclic_product_reps_eq (N : ℕ) (hN : 1 ≤ N) :
    get_cyclic_product_reps N
      = ((List.range (N * N)).map (fun m =>
          np_kron N ((get_cyclic_reps N).getD (m / N) zero_mat)
            ((get_cyclic_reps N).getD (m % N) zero_mat))).map
          (fun rep => fun i j => rep j i) := by
  have hsorted : List.Sorted
      (fun m1 m2 => np_argmax (fun i => m1 i 0) (N ^ 2) ≤ np_argmax (fun i => m2 i 0) (N ^ 2))
      ((List.range (N * N)).map (fun m =>
        np_kron N ((get_cyclic_reps N).getD (m / N) zero_mat)
          ((get_cyclic_reps N).getD (m % N) zero_mat))) := by
    refine List.pairwise_iff_getElem.mpr ?_
    intro i j hi hj hij
    have hi' : i < N * N := by simpa using hi
    have hj' : j < N * N := by simpa using hj
    rw [List.getElem_map, List.getElem_map, List.getElem_range, List.getElem_range]
    rw [prod_key N hN i hi', prod_key N hN j hj']
    omega
  simp only [get_cyclic_product_reps]
  rw [prod_reps_unsorted N hN, List.Sorted.insertionSort_eq hsorted]

/-- Entry `(a, b)` of the `m`-th product representation, in closed form. -/
theorem get_cyclic_product_reps_getD (N : ℕ) (hN : 1 ≤ N) (m : ℕ) (hm : m < N ^ 2) :
    ∀ a < N ^ 2, ∀ b < N ^ 2,
      (get_cyclic_product_reps N).getD m zero_mat a b
        = if a / N = (b / N + (N - m / N)) % N ∧ a % N = (b % N + (N - m % N)) % N
          then 1 else 0 := by
  intro a ha b hb
  have hm' : m < N * N := by rw [pow_two] at hm; exact hm
  have ha' : a < N * N := by rw [pow_two] at ha; exact ha
  have hb' : b < N * N := by rw [pow_two] at hb; exact hb
  have hadiv : a / N < N := by rw [Nat.div_lt_iff_lt_mul (by omega)]; exact ha'
  have hamod : a % N < N := Nat.mod_lt _ (by omega)
  have hbdiv : b / N < N := by rw [Nat.div_lt_iff_lt_mul (by omega)]; exact hb'
  have hbmod : b % N < N := Nat.mod_lt _ (by omega)
  have hmk : m / N < N := by rw [Nat.div_lt_iff_lt_mul (by omega)]; exact hm'
  have hml : m % N < N := Nat.mod_lt _ (by omega)
  rw [get_cyclic_product_reps_eq N hN]
  have hb1 : m < (((List.range (N * N)).map (fun m =>
      np_kron N ((get_cyclic_reps N).getD (m / N) zero_mat)
        ((get_cyclic_reps N).getD (m % N) zero_mat))).map
      (fun rep => fun i j => rep j i)).length := by
    simp only [List.length_map, List.length_range]
    exact hm'
  rw [List.getD_eq_getElem _ _ hb1, List.getElem_map, List.getElem_map, List.getElem_range]
  simp only [np_kron]
  rw [get_cyclic_reps_getD N (m / N) hmk (b / N) hbdiv (a / N) hadiv,
    get_cyclic_reps_getD N (m % N) hml (b % N) hbmod (a % N) hamod]
  by_cases c1 : a / N = (b / N + (N - m / N)) % N <;>
    by_cases c2 : a % N = (b % N + (N - m % N)) % N <;>
      simp [c1, c2]

/-- The doubly-shifted indicator matrix is a permutation matrix on `N²`. -/
theorem prod_shift_perm (N k l : ℕ) (hN : 1 ≤ N) (hk : k < N) (hl : l < N) :
    IsPermMatrix (N ^ 2) (fun a b =>
      if a / N = (b / N + (N - k)) % N ∧ a % N = (b % N + (N - l)) % N
      then 1 else 0) := by
  have hNN : N ^ 2 = N * N := pow_two N
  refine ⟨fun a _ b _ => by dsimp only; split_ifs <;> simp, fun a ha => ?_, fun b hb => ?_⟩
  · have ha' : a < N * N := by rw [← hNN]; exact ha
    have had : a / N < N := by rw [Nat.div_lt_iff_lt_mul (by omega)]; exact ha'
    have ham : a % N < N := Nat.mod_lt _ (by omega)
    refine ⟨(a / N + k) % N * N + (a % N + l) % N, ⟨?_, ?_⟩, ?_⟩
    · rw [hNN]
      exact flat_lt N _ _ (Nat.mod_lt _ (by omega)) (Nat.mod_lt _ (by omega))
    · dsimp only
      have hdecomp := (@flat_decomp_iff N hN ((a / N + k) % N * N + (a % N + l) % N)
        ((a / N + k) % N) ((a % N + l) % N)
        (Nat.mod_lt _ (by omega)) (Nat.mod_lt _ (by omega))).mp rfl
      refine if_pos ⟨?_, ?_⟩
      · rw [hdecomp.1]
        exact (shift_cancel_right N k (a / N) hN hk had).symm
      · rw [hdecomp.2]
        exact (shift_cancel_right N l (a % N) hN hl ham).symm
    · rintro y ⟨hy, hy1⟩
      dsimp only at hy1
      have hcond : a / N = (y / N + (N - k)) % N ∧ a % N = (y % N + (N - l)) % N := by
        by_contra h
        rw [if_neg h] at hy1
        exact absurd hy1 (by norm_num)
      have hy' : y < N * N := by rw [← hNN]; exact hy
      have hyd : y / N < N := by rw [Nat.div_lt_iff_lt_mul (by omega)]; exact hy'
      have hym : y % N < N := Nat.mod_lt _ (by omega)
      exact (@flat_decomp_iff N hN y ((a / N + k) % N) ((a % N + l) % N)
        (Nat.mod_lt _ (by omega)) (Nat.mod_lt _ (by omega))).mpr
        ⟨(prod_rep_cond_iff N k hk had hyd).mp hcond.1,
         (prod_rep_cond_iff N l hl ham hym).mp hcond.2⟩
  · have hb' : b < N * N := by rw [← hNN]; exact hb
    have hbd : b / N < N := by rw [Nat.div_lt_iff_lt_mul (by omega)]; exact hb'
    have hbm : b % N < N := Nat.mod_lt _ (by omega)
    refine ⟨(b / N + (N - k)) % N * N + (b % N + (N - l)) % N, ⟨?_, ?_⟩, ?_⟩
    · rw [hNN]
      exact flat_lt N _ _ (Nat.mod_lt _ (by omega)) (Nat.mod_lt _ (by omega))
    · dsimp only
      have hdecomp := (@flat_decomp_iff N hN
        ((b / N + (N - k)) % N * N + (b % N + (N - l)) % N)
        ((b / N + (N - k)) % N) ((b % N + (N - l)) % N)
        (Nat.mod_lt _ (by omega)) (Nat.mod_lt _ (by omega))).mp rfl
      exact if_pos ⟨hdecomp.1, hdecomp.2⟩
    · rintro y ⟨hy, hy1⟩
      dsimp only at hy1
      have hcond : y / N = (b / N + (N - k)) % N ∧ y % N = (b % N + (N - l)) % N := by
        by_contra h
        rw [if_neg h] at hy1
        exact absurd hy1 (by norm_num)
      exact (@flat_decomp_iff N hN y ((b / N + (N - k)) % N) ((b % N + (N - l)) % N)
        (Nat.mod_lt _ (by omega)) (Nat.mod_lt _ (by omega))).mpr hcond

/-- **C4.** `get_cyclic_product_reps N` is a list of exactly `N²` permutation
matrices of size `N²×N²`, whose first element (index 0) is the identity. -/
theorem get_cyclic_product_reps_spec (N : ℕ) (hN : 1 ≤ N) :
    (get_cyclic_product_reps N).length = N ^ 2 ∧
    (∀ m < N ^ 2, IsPermMatrix (N ^ 2) ((get_cyclic_product_reps N).getD m zero_mat)) ∧
    (∀ a < N ^ 2, ∀ b < N ^ 2,
      (get_cyclic_product_reps N).getD 0 zero_mat a b = if a = b then 1 else 0) := by
  have hN2 : 1 ≤ N ^ 2 := Nat.one_le_pow _ _ (by omega)
  refine ⟨?_, ?_, ?_⟩
  · rw [get_cyclic_product_reps_eq N hN]
    simp only [List.length_map, List.length_range]
    rw [pow_two]
  · intro m hm
    have hm' : m < N * N := by rw [pow_two] at hm; exact hm
    have hmk : m / N < N := by rw [Nat.div_lt_iff_lt_mul (by omega)]; exact hm'
    have hml : m % N < N := Nat.mod_lt _ (by omega)
    exact IsPermMatrix_congr
      (fun a ha b hb => (get_cyclic_product_reps_getD N hN m hm a ha b hb).symm)
      (prod_shift_perm N (m / N) (m % N) hN hmk hml)
  · intro a ha b hb
    have ha' : a < N * N := by rw [pow_two] at ha; exact ha
    have hb' : b < N * N := by rw [pow_two] at hb; exact hb
    have hbd : b / N < N := by rw [Nat.div_lt_iff_lt_mul (by omega)]; exact hb'
    have hbm : b % N < N := Nat.mod_lt _ (by omega)
    rw [get_cyclic_product_reps_getD N hN 0 (by omega) a ha b hb]
    simp only [Nat.zero_div, Nat.zero_mod, Nat.sub_zero]
    have e1 : (b / N + N) % N = b / N := by
      rw [Nat.add_mod_right]
      exact Nat.mod_eq_of_lt hbd
    have e2 : (b % N + N) % N = b % N := by
      rw [Nat.add_mod_right]
      exact Nat.mod_eq_of_lt hbm
    rw [e1, e2]
    have hiff : (a / N = b / N ∧ a % N = b % N) ↔ a = b := by
      constructor
      · rintro ⟨h1, h2⟩
        have ha2 := Nat.div_add_mod a N
        have hb2 := Nat.div_add_mod b N
        rw [h1, h2] at ha2
        rw [← ha2]
        exact hb2
      · rintro rfl
        exact ⟨rfl, rfl⟩
    by_cases h : a = b
    · rw [if_pos (hiff.mpr h), if_pos h]
    · rw [if_neg (fun hc => h (hiff.mp hc)), if_neg h]

/-- Witness for C4 at `N = 2`. -/
theorem get_cyclic_product_reps_spec_witness :
    1 ≤ 2 ∧
    ((get_cyclic_product_reps 2).length = 2 ^ 2 ∧
    (∀ m < 2 ^ 2, IsPermMatrix (2 ^ 2) ((get_cyclic_product_reps 2).getD m zero_mat)) ∧
    (∀ a < 2 ^ 2, ∀ b < 2 ^ 2,
      (get_cyclic_product_reps 2).getD 0 zero_mat a b = if a = b then 1 else 0)) :=
  ⟨by norm_num, get_cyclic_product_reps_spec 2 (by norm_num)⟩

/-! ### The driver's reconstruction -/

/-- Solving the shift condition for the shift amount. -/
theorem shift_solve_iff (N k x y : ℕ) (hk : k < N) (hx : x < N) (hy : y < N) :
    x = (y + (N - k)) % N ↔ k = (y + N - x) % N := by
  rw [mod_of_lt_two_mul (show y + (N - k) < 2 * N by omega),
    mod_of_lt_two_mul (show y + N - x < 2 * N by omega)]
  split_ifs <;> omega

/-- The driver's assembled sum is the block-circulant extension of the
filter row: entry `(i,j)` picks out the filter entry at the group
difference index. -/
theorem approx_eq_circulant (N : ℕ) (hN : 1 ≤ N) (kernel_func : Point3D → Point3D → ℝ)
    (lamb R r : ℝ) (si : Bool) :
    ∀ i < N ^ 2, ∀ j < N ^ 2,
      approx_matrix N kernel_func lamb R r si i j
        = (get_filter N kernel_func lamb R r si).getD (group_diff_index N i j) 0 := by
  intro i hi j hj
  have hi' : i < N * N := by rw [pow_two] at hi; exact hi
  have hj' : j < N * N := by rw [pow_two] at hj; exact hj
  have hidiv : i / N < N := by rw [Nat.div_lt_iff_lt_mul (by omega)]; exact hi'
  have himod : i % N < N := Nat.mod_lt _ (by omega)
  have hjdiv : j / N < N := by rw [Nat.div_lt_iff_lt_mul (by omega)]; exact hj'
  have hjmod : j % N < N := Nat.mod_lt _ (by omega)
  have hk : (j / N + N - i / N) % N < N := Nat.mod_lt _ (by omega)
  have hl : (j % N + N - i % N) % N < N := Nat.mod_lt _ (by omega)
  have hd : group_diff_index N i j < N ^ 2 := by
    simp only [group_diff_index]
    rw [pow_two]
    exact flat_lt N _ _ hk hl
  have hstep : ∀ m ∈ Finset.range (N ^ 2),
      (get_filter N kernel_func lamb R r si).getD m 0 *
        (((get_cyclic_product_reps N).getD m zero_mat i j : ℤ) : ℝ)
      = if m = group_diff_index N i j
        then (get_filter N kernel_func lamb R r si).getD m 0 else 0 := by
    intro m hm
    have hmlt := Finset.mem_range.mp hm
    have hm' : m < N * N := by rw [pow_two] at hmlt; exact hmlt
    have hmk : m / N < N := by rw [Nat.div_lt_iff_lt_mul (by omega)]; exact hm'
    have hml : m % N < N := Nat.mod_lt _ (by omega)
    rw [get_cyclic_product_reps_getD N hN m hmlt i hi j hj]
    have hcond : (i / N = (j / N + (N - m / N)) % N ∧ i % N = (j % N + (N - m % N)) % N)
        ↔ m = group_diff_index N i j := by
      rw [shift_solve_iff N (m / N) (i / N) (j / N) hmk hidiv hjdiv,
        shift_solve_iff N (m % N) (i % N) (j % N) hml himod hjmod]
      exact (@flat_decomp_iff N hN m ((j / N + N - i / N) % N)
        ((j % N + N - i % N) % N) hk hl).symm
    by_cases hc : m = group_diff_index N i j
    · rw [if_pos (hcond.mpr hc), if_pos hc]
      norm_num
    · rw [if_neg (fun h => hc (hcond.mp h)), if_neg hc]
      norm_num
  simp only [approx_matrix]
  rw [Finset.sum_congr rfl hstep, Finset.sum_ite_eq' (Finset.range (N ^ 2))
    (group_diff_index N i j) (fun m => (get_filter N kernel_func lamb R r si).getD m 0),
    if_pos (Finset.mem_range.mpr hd)]

/-- **C1 (amended).** The driver's assembled matrix `Σ filter[m]·rep[m]` is
the block-circulant extension of the filter row: entry `(i,j)` equals
`filter[((θj−θi) mod N)·N + ((φj−φi) mod N)]` for every kernel and all
parameters; in particular its row 0 equals row 0 of `full_matrix`.
(Elementwise equality with the whole of `full_matrix`, as originally
claimed, fails — see the counterexample theorem.) -/
theorem approx_matrix_circulant (N : ℕ) (hN : 1 ≤ N)
    (kernel_func : Point3D → Point3D → ℝ) (lamb R r : ℝ) (si : Bool) :
    (∀ i < N ^ 2, ∀ j < N ^ 2,
      approx_matrix N kernel_func lamb R r si i j
        = (get_filter N kernel_func lamb R r si).getD (group_diff_index N i j) 0) ∧
    (∀ j < N ^ 2,
      approx_matrix N kernel_func lamb R r si 0 j
        = full_matrix N kernel_func lamb R r si 0 j) := by
  refine ⟨fun i hi j hj => approx_eq_circulant N hN kernel_func lamb R r si i hi j hj,
    fun j hj => ?_⟩
  have hN2 : 1 ≤ N ^ 2 := Nat.one_le_pow _ _ (by omega)
  have hj' : j < N * N := by rw [pow_two] at hj; exact hj
  have hjdiv : j / N < N := by rw [Nat.div_lt_iff_lt_mul (by omega)]; exact hj'
  have hjmod : j % N < N := Nat.mod_lt _ (by omega)
  rw [approx_eq_circulant N hN kernel_func lamb R r si 0 (by omega) j hj]
  have hd : group_diff_index N 0 j = j := by
    simp only [group_diff_index, Nat.zero_div, Nat.zero_mod, Nat.sub_zero]
    rw [Nat.add_mod_right, Nat.add_mod_right, Nat.mod_eq_of_lt hjdiv,
      Nat.mod_eq_of_lt hjmod]
    rw [show j / N * N + j % N = N * (j / N) + j % N by ring]
    exact Nat.div_add_mod j N
  rw [hd, get_filter_getD N kernel_func lamb R r si j hj]
  by_cases h0j : j = 0
  · subst h0j
    simp [full_matrix]
  · rw [if_neg h0j]
    simp only [full_matrix]
    rw [if_neg (Ne.symm h0j), add_zero]

/-- Witness for the amended C1 at `N = 2`, square-distance kernel,
`λ = R = r = 1`, `self_interact = true`. -/
theorem approx_matrix_circulant_witness :
    1 ≤ 2 ∧
    ((∀ i < 2 ^ 2, ∀ j < 2 ^ 2,
      approx_matrix 2 square_distance_kernel 1 1 1 true i j
        = (get_filter 2 square_distance_kernel 1 1 1 true).getD
            (group_diff_index 2 i j) 0) ∧
    (∀ j < 2 ^ 2,
      approx_matrix 2 square_distance_kernel 1 1 1 true 0 j
        = full_matrix 2 square_distance_kernel 1 1 1 true 0 j)) :=
  ⟨by norm_num, approx_matrix_circulant 2 (by norm_num) square_distance_kernel 1 1 1 true⟩

/-- The squared-distance kernel, written without the square root. -/
theorem sqdist_eval (p q : Point3D) :
    square_distance_kernel p q
      = (q.x - p.x) ^ 2 + (q.y - p.y) ^ 2 + (q.z - p.z) ^ 2 := by
  simp only [square_distance_kernel, norm3, psub]
  exact Real.sq_sqrt (by positivity)

/-- Concrete evaluation: entry `(0,1)` at `N = 2`, `R = r = 1`. The points
are `(2,0,0)` and `(-2,0,0)`, so the kernel value is 16 and the entry is
`π² · 16 · 1 · 2 = 32π²`. -/
theorem entry_2_01_eval :
    matrix_entry 0 1 2 square_distance_kernel 1 1 true = 32 * Real.pi ^ 2 := by
  simp only [matrix_entry]
  rw [if_neg (by simp)]
  rw [sqdist_eval]
  simp only [torus_point]
  norm_num
  ring

/-- Concrete evaluation: entry `(2,3)` at `N = 2`, `R = r = 1`. Both grid
points have `θ = π`, where `R + r·cos θ = 0`, so both embed to the origin
and the kernel value is 0. -/
theorem entry_2_23_eval :
    matrix_entry 2 3 2 square_distance_kernel 1 1 true = 0 := by
  simp only [matrix_entry]
  rw [if_neg (by simp)]
  rw [sqdist_eval]
  simp only [torus_point]
  norm_num

/-- **C1 (counterexample).** At `N = 2`, kernel = square_distance_kernel,
`λ = 1`, `R = 1`, `r = 1`, `self_interact = true`, the assembled matrix
`Σ_{m<4} filter[m]·rep[m]` differs from `full_matrix` at entry `(2,3)`:
the sum gives `filter[1] = λ·matrix_entry(0,1) = 32π² ≠ 0`, while
`full_matrix` gives `λ·matrix_entry(2,3) = 0` (both θ = π points embed to
the torus origin, so their distance is 0, while the θ = 0 points are
distance 4 apart — `matrix_entry` is not θ-shift invariant). -/
theorem reconstruction_identity_counterexample :
    approx_matrix 2 square_distance_kernel 1 1 1 true 2 3
      ≠ full_matrix 2 square_distance_kernel 1 1 1 true 2 3 := by
  have h1 : approx_matrix 2 square_distance_kernel 1 1 1 true 2 3
      = 32 * Real.pi ^ 2 := by
    rw [approx_eq_circulant 2 (by norm_num) square_distance_kernel 1 1 1 true
      2 (by norm_num) 3 (by norm_num)]
    rw [show group_diff_index 2 2 3 = 1 from rfl]
    rw [get_filter_getD 2 square_distance_kernel 1 1 1 true 1 (by norm_num),
      if_neg (by norm_num), entry_2_01_eval]
    ring
  have h2 : full_matrix 2 square_distance_kernel 1 1 1 true 2 3 = 0 := by
    simp only [full_matrix]
    rw [entry_2_23_eval, if_neg (by norm_num)]
    ring
  rw [h1, h2]
  positivity

/-! ### φ-shift invariance of the full matrix -/

/-- The `(0,b)` action is injective on flattened indices. -/
theorem phi_shift_eq_iff (N b : ℕ) (hN : 1 ≤ N) {i j : ℕ}
    (hi : i < N ^ 2) (hj : j < N ^ 2) :
    phi_shift N b i = phi_shift N b j ↔ i = j := by
  have hi' : i < N * N := by rw [pow_two] at hi; exact hi
  have hj' : j < N * N := by rw [pow_two] at hj; exact hj
  have hidiv : i / N < N := by rw [Nat.div_lt_iff_lt_mul (by omega)]; exact hi'
  have himod : i % N < N := Nat.mod_lt _ (by omega)
  have hjdiv : j / N < N := by rw [Nat.div_lt_iff_lt_mul (by omega)]; exact hj'
  have hjmod : j % N < N := Nat.mod_lt _ (by omega)
  have hie := (@flat_decomp_iff N hN (phi_shift N b i) (i / N) ((i % N + b) % N)
    hidiv (Nat.mod_lt _ (by omega))).mp rfl
  have hje := (@flat_decomp_iff N hN (phi_shift N b j) (j / N) ((j % N + b) % N)
    hjdiv (Nat.mod_lt _ (by omega))).mp rfl
  constructor
  · intro h
    have h1 : i / N = j / N := by rw [← hie.1, ← hje.1, h]
    have h2 : (i % N + b) % N = (j % N + b) % N := by rw [← hie.2, ← hje.2, h]
    have h3 : i % N = j % N := add_mod_inj N b himod hjmod h2
    have hi4 := Nat.div_add_mod i N
    have hj4 := Nat.div_add_mod j N
    rw [h1, h3] at hi4
    rw [← hi4]
    exact hj4
  · rintro rfl
    rfl

/-- The φ-index components of a shifted index. -/
theorem phi_shift_components (N b : ℕ) (hN : 1 ≤ N) {i : ℕ} (hi : i < N ^ 2) :
    phi_shift N b i / N = i / N ∧ phi_shift N b i % N = (i % N + b) % N := by
  have hi' : i < N * N := by rw [pow_two] at hi; exact hi
  have hidiv : i / N < N := by rw [Nat.div_lt_iff_lt_mul (by omega)]; exact hi'
  exact (@flat_decomp_iff N hN (phi_shift N b i) (i / N) ((i % N + b) % N)
    hidiv (Nat.mod_lt _ (by omega))).mp rfl

/-- The Euclidean distance between two torus points is invariant under a
common shift of both φ angles. -/
theorem norm3_psub_phi_shift (theta1 phi1 theta2 phi2 c R r : ℝ) :
    norm3 (psub (torus_point theta2 (phi2 + c) R r) (torus_point theta1 (phi1 + c) R r))
      = norm3 (psub (torus_point theta2 phi2 R r) (torus_point theta1 phi1 R r)) := by
  simp only [norm3, psub, torus_point]
  congr 1
  have e1 := Real.sin_sq_add_cos_sq (phi1 + c)
  have e2 := Real.sin_sq_add_cos_sq (phi2 + c)
  have e3 := Real.sin_sq_add_cos_sq phi1
  have e4 := Real.sin_sq_add_cos_sq phi2
  have e5 : Real.cos (phi2 + c) * Real.cos (phi1 + c)
      + Real.sin (phi2 + c) * Real.sin (phi1 + c)
      = Real.cos phi2 * Real.cos phi1 + Real.sin phi2 * Real.sin phi1 := by
    rw [← Real.cos_sub, ← Real.cos_sub]
    congr 1
    ring
  linear_combination (R + r * Real.cos theta2) ^ 2 * e2
    + (R + r * Real.cos theta1) ^ 2 * e1
    - (R + r * Real.cos theta2) ^ 2 * e4
    - (R + r * Real.cos theta1) ^ 2 * e3
    - 2 * (R + r * Real.cos theta1) * (R + r * Real.cos theta2) * e5

/-- Casting the wrapped φ-index to an angle: the wrap only subtracts a whole
number of turns. -/
theorem angle_mod_cast (N x b : ℕ) (hN : 1 ≤ N) :
    (((x + b) % N : ℕ) : ℝ) * (2 * Real.pi / N)
      = ((x : ℝ) * (2 * Real.pi / N) + (b : ℝ) * (2 * Real.pi / N))
        - (((x + b) / N : ℕ) : ℝ) * (2 * Real.pi) := by
  have hq := Nat.div_add_mod (x + b) N
  have hN0 : (N : ℝ) ≠ 0 := Nat.cast_ne_zero.mpr (by omega)
  have h2 : (((x + b) % N : ℕ) : ℝ)
      = (x : ℝ) + (b : ℝ) - (N : ℝ) * (((x + b) / N : ℕ) : ℝ) := by
    have h3 := congrArg (fun t : ℕ => (t : ℝ)) hq
    push_cast at h3
    linarith
  rw [h2]
  field_simp
  ring

/-- A torus point at a wrapped φ grid angle equals the torus point at the
unwrapped angle. -/
theorem torus_point_phi_mod (N x b : ℕ) (hN : 1 ≤ N) (theta R r : ℝ) :
    torus_point theta ((((x + b) % N : ℕ) : ℝ) * (2 * Real.pi / N)) R r
      = torus_point theta ((x : ℝ) * (2 * Real.pi / N) + (b : ℝ) * (2 * Real.pi / N)) R r := by
  simp only [torus_point]
  rw [angle_mod_cast N x b hN]
  rw [Real.cos_periodic.sub_nat_mul_eq, Real.sin_periodic.sub_nat_mul_eq]

/-- The program's three kernels are all functions of the distance, hence
invariant under a common φ-shift of both points. -/
theorem kernel_phi_shift_invariant (kernel_func : Point3D → Point3D → ℝ)
    (hker : kernel_func = log_kernel ∨ kernel_func = exp_kernel ∨
      kernel_func = square_distance_kernel)
    (theta1 phi1 theta2 phi2 c R r : ℝ) :
    kernel_func (torus_point theta1 (phi1 + c) R r) (torus_point theta2 (phi2 + c) R r)
      = kernel_func (torus_point theta1 phi1 R r) (torus_point theta2 phi2 R r) := by
  have hnorm := norm3_psub_phi_shift theta1 phi1 theta2 phi2 c R r
  rcases hker with rfl | rfl | rfl
  · simp only [log_kernel, hnorm]
  · simp only [exp_kernel, hnorm]
  · simp only [square_distance_kernel, hnorm]

/-- `matrix_entry` is invariant under the `(0,b)` action on both indices,
for the three kernels of the program. -/
theorem matrix_entry_phi_shift (N : ℕ) (hN : 1 ≤ N)
    (kernel_func : Point3D → Point3D → ℝ)
    (hker : kernel_func = log_kernel ∨ kernel_func = exp_kernel ∨
      kernel_func = square_distance_kernel)
    (R r : ℝ) (si : Bool) (b : ℕ) :
    ∀ i < N ^ 2, ∀ j < N ^ 2,
      matrix_entry (phi_shift N b i) (phi_shift N b j) N kernel_func R r si
        = matrix_entry i j N kernel_func R r si := by
  intro i hi j hj
  have hie := phi_shift_components N b hN hi
  have hje := phi_shift_components N b hN hj
  simp only [matrix_entry]
  rw [hie.1, hie.2, hje.1, hje.2]
  rw [torus_point_phi_mod N (i % N) b hN, torus_point_phi_mod N (j % N) b hN]
  rw [kernel_phi_shift_invariant kernel_func hker
    (((i / N : ℕ) : ℝ) * (2 * Real.pi / N)) (((i % N : ℕ) : ℝ) * (2 * Real.pi / N))
    (((j / N : ℕ) : ℝ) * (2 * Real.pi / N)) (((j % N : ℕ) : ℝ) * (2 * Real.pi / N))
    ((b : ℝ) * (2 * Real.pi / N)) R r]
  exact if_congr (and_congr_left (fun _ => phi_shift_eq_iff N b hN hi hj)) rfl rfl

/-- **C2 (amended).** `full_matrix` is invariant under the simultaneous
action of the φ-shift subgroup `{0} × ℤ_N` on row and column indices, for
each of the program's three kernels; so every entry is determined by an
entry whose row φ-index is 0. Invariance under the full group
`ℤ_N × ℤ_N` (θ-shifts included), as originally claimed, fails — see the
counterexample theorem. -/
theorem full_matrix_phi_invariant (N : ℕ) (hN : 1 ≤ N)
    (kernel_func : Point3D → Point3D → ℝ)
    (hker : kernel_func = log_kernel ∨ kernel_func = exp_kernel ∨
      kernel_func = square_distance_kernel)
    (lamb R r : ℝ) (si : Bool) (b : ℕ) :
    ∀ i < N ^ 2, ∀ j < N ^ 2,
      full_matrix N kernel_func lamb R r si (phi_shift N b i) (phi_shift N b j)
        = full_matrix N kernel_func lamb R r si i j := by
  intro i hi j hj
  simp only [full_matrix]
  rw [matrix_entry_phi_shift N hN kernel_func hker R r si b i hi j hj]
  rw [if_congr (phi_shift_eq_iff N b hN hi hj) rfl rfl]

/-- Witness for the amended C2 at `N = 2`, exponential kernel, `b = 1`. -/
theorem full_matrix_phi_invariant_witness :
    1 ≤ 2 ∧
    (∀ i < 2 ^ 2, ∀ j < 2 ^ 2,
      full_matrix 2 exp_kernel 1 1 1 true (phi_shift 2 1 i) (phi_shift 2 1 j)
        = full_matrix 2 exp_kernel 1 1 1 true i j) :=
  ⟨by norm_num, full_matrix_phi_invariant 2 (by norm_num) exp_kernel
    (Or.inr (Or.inl rfl)) 1 1 1 true 1⟩

/-- **C2 (counterexample).** At `N = 2`, kernel = square_distance_kernel,
`λ = R = r = 1`, `self_interact = true`, the full matrix is not invariant
under the θ-shift `(a,b) = (1,0)`: that group element maps the index pair
`(0,1)` (both θ-indices 0) to `(2,3)` (both θ-indices 1), but
`M[0,1] = 32π² ≠ 0 = M[2,3]`, because the embedded distance between the two
`θ = 0` grid points is 4 while both `θ = π` grid points coincide at the
origin. Hence `M` is not block-circulant and is not determined by its
first row. -/
theorem block_circulant_counterexample :
    full_matrix 2 square_distance_kernel 1 1 1 true 0 1
      ≠ full_matrix 2 square_distance_kernel 1 1 1 true 2 3 := by
  have h1 : full_matrix 2 square_distance_kernel 1 1 1 true 0 1
      = 32 * Real.pi ^ 2 := by
    simp only [full_matrix]
    rw [entry_2_01_eval, if_neg (by norm_num)]
    ring
  have h2 : full_matrix 2 square_distance_kernel 1 1 1 true 2 3 = 0 := by
    simp only [full_matrix]
    rw [entry_2_23_eval, if_neg (by norm_num)]
    ring
  rw [h1, h2]
  positivity

end IntegralConvolve
